import Mathlib

/-!
Shallow embedding of the storage layer (src/ru_address/storage.py) and of
the pipeline (src/ru_address/pipeline.py) of the ru_address repository,
together with theorems checking the specification's claims about them.

Python strings are modelled as lists of characters.  The model covers the
ASCII fragment of the Python case / digit predicates; the archive naming
convention handled by the code is ASCII.
-/

/-- Filenames, path fragments and other Python strings, as character lists. -/
abbrev Str : Type := List Char

/-- ASCII lower-casing of one character: the fragment of Python str.lower
exercised by the matching code. -/
def asciiLower (c : Char) : Char :=
  if 'A' ≤ c ∧ c ≤ 'Z' then Char.ofNat (c.toNat + 32) else c

/-- ASCII upper-casing of one character: the fragment of Python str.upper
exercised by the matching code. -/
def asciiUpper (c : Char) : Char :=
  if 'a' ≤ c ∧ c ≤ 'z' then Char.ofNat (c.toNat - 32) else c

/-- Python str.lower on the ASCII fragment. -/
def lowerStr (s : Str) : Str := s.map asciiLower

/-- Python str.upper on the ASCII fragment. -/
def upperStr (s : Str) : Str := s.map asciiUpper

/-- Python str.isdigit (and, on this fragment, str.isnumeric): non-empty and
made of decimal digits only. -/
def pyIsDigit (s : Str) : Bool := !s.isEmpty && s.all (fun c => c.isDigit)

/-- De-duplication mirroring list(dict.fromkeys(...)) and the set
accumulation of the source.  dict.fromkeys keeps first occurrences while
List.dedup keeps last ones; every use below feeds a count check or a sort,
so only the element set is observable and either orientation embeds the
source. -/
def pyDedup {α : Type} [DecidableEq α] (l : List α) : List α := l.dedup

/-- Lexicographic comparison of strings by character code, the order used by
Python sorted() on str values. -/
def strLe : Str → Str → Bool
  | [], _ => true
  | _ :: _, [] => false
  | a :: as, b :: bs => if a = b then strLe as bs else decide (a < b)

/-- Sorted insertion under strLe. -/
def insertStr (x : Str) : List Str → List Str
  | [] => [x]
  | y :: ys => if strLe x y then x :: y :: ys else y :: insertStr x ys

/-- Python sorted() over a list of strings.  sorted() is a stable merge sort;
under the total order strLe any sort produces the same ascending sequence of
the same multiset, so insertion sort embeds it. -/
def sortStrs : List Str → List Str
  | [] => []
  | x :: xs => insertStr x (sortStrs xs)

/-- Python str.replace of backslashes by forward slashes, used by ZipStorage
to normalise member names. -/
def pyNormalizeSlashes (s : Str) : Str := s.map (fun c => if c = '\\' then '/' else c)

/-- Python str.split on a one-character separator (always non-empty result;
the empty string splits to one empty component). -/
def splitOnChar (sep : Char) : Str → List Str
  | [] => [[]]
  | c :: cs =>
    match splitOnChar sep cs with
    | [] => [[]]
    | h :: t => if c = sep then [] :: h :: t else (c :: h) :: t

/-- Components of a normalised archive member name. -/
def pySplitSlash (s : Str) : List Str := splitOnChar '/' s

/-- os.path.basename on a normalised name: the part after the last slash. -/
def pyBasename (s : Str) : Str := (pySplitSlash s).getLastD []

/-- The path segments before the filename: name.split(slash) minus the final
component, as used for scope checks and region enumeration. -/
def pyDirParts (s : Str) : List Str := (pySplitSlash s).dropLast

/-- fnmatch-style glob matching as used by glob.glob for the patterns the
directory backend builds: a star matches any run of characters, a question
mark one character, anything else itself.  Character classes are not modelled;
the theorems that depend on glob semantics restrict table and extension to
characters that fnmatch treats literally. -/
def globMatch : Str → Str → Bool
  | [], s => s.isEmpty
  | p :: ps, s =>
    if p = '*' then s.tails.any (fun t => globMatch ps t)
    else
      match s with
      | [] => false
      | c :: cs => (p = '?' || p = c) && globMatch ps cs

/-- One container entry: its name and its content bytes. -/
structure FileEntry where
  name : Str
  bytes : List Nat
deriving DecidableEq, Repr

/-- The two resolution failures of the storage layer.  The source raises
FileNotFoundError in both cases but with distinct messages; the constructors
stand for the two message kinds. -/
inductive ResolutionError where
  | notFound
  | ambiguous
deriving DecidableEq, Repr

/-- The candidate glob patterns of DirectoryStorage._search: for each of the
lower- and upper-cased extension variants, the two patterns
AS_{table}_*.{ext} and AS_{table}.{ext}.  The source iterates a Python set of
the two variants (arbitrary order) and de-duplicates the collected matches;
only the resulting match set is observable. -/
def dirPatterns (table ext : Str) : List Str :=
  (pyDedup [lowerStr ext, upperStr ext]).flatMap
    (fun v =>
      [("AS_".data ++ table ++ '_' :: '*' :: '.' :: v),
       ("AS_".data ++ table ++ '.' :: v)])

/-- Whether a directory entry is matched by any candidate pattern. -/
def dirGlobHit (table ext name : Str) : Bool :=
  (dirPatterns table ext).any (fun p => globMatch p name)

/-- The de-duplicated match list of DirectoryStorage._search over a directory
listing.  The source collects glob results pattern by pattern (sorting each
pattern's hits) and then de-duplicates; the sort only affects the order of
duplicates removed next, so the model keeps the listing order per pattern. -/
def dirSearchList (files : List FileEntry) (table ext : Str) : List FileEntry :=
  pyDedup ((dirPatterns table ext).flatMap
    (fun p => files.filter (fun f => globMatch p f.name)))

/-- DirectoryStorage._search: exactly one de-duplicated match is returned;
zero raises the not-found error, several raise the ambiguity error. -/
def dirSearch (files : List FileEntry) (table ext : Str) : Except ResolutionError FileEntry :=
  match dirSearchList files table ext with
  | [f] => .ok f
  | [] => .error .notFound
  | _ => .error .ambiguous

/-- A directory container: the files at the base path and the immediate
subdirectories with their files. -/
structure DirTree where
  rootFiles : List FileEntry
  subdirs : List (Str × List FileEntry)

/-- The files of an immediate subdirectory; a missing directory yields the
empty listing, as glob.glob does for a non-existent path. -/
def subdirFiles (t : DirTree) (r : Str) : List FileEntry :=
  match t.subdirs.find? (fun g => g.1 == r) with
  | some g => g.2
  | none => []

/-- DirectoryStorage.open_schema: resolve the xsd file at the base path and
stream its bytes. -/
def dirOpenSchema (t : DirTree) (entity : Str) : Except ResolutionError (List Nat) :=
  (dirSearch t.rootFiles entity ("xsd".data)).map (fun e => e.bytes)

/-- DirectoryStorage.open_table: resolve the xml file at the base path or the
given region subdirectory and stream its bytes. -/
def dirOpenTable (t : DirTree) (table : Str) (region : Option Str) :
    Except ResolutionError (List Nat) :=
  let files := match region with
    | none => t.rootFiles
    | some r => subdirFiles t r
  (dirSearch files table ("xml".data)).map (fun e => e.bytes)

/-- DirectoryStorage.list_regions: the all-digit immediate subdirectory names
of the base path, sorted; a missing base path yields the empty list via the
caught FileNotFoundError.  A listing entry carries its name and whether it is
a directory. -/
def dirListRegions (listing : Option (List (Str × Bool))) : List Str :=
  match listing with
  | none => []
  | some entries =>
    sortStrs ((entries.filter (fun e => pyIsDigit e.1 && e.2)).map (fun e => e.1))

/-- One position of the ZipStorage._matches regex: the lower-cased basename
starts (here) with as_{table} followed either by an underscore and a decimal
digit, or by a dot and the extension ending the name. -/
def zipHitHere (tl el s : Str) : Bool :=
  ("as_".data ++ tl).isPrefixOf s &&
    (let r := s.drop ("as_".data ++ tl).length
     (match r with
      | u :: d :: _ => u = '_' && d.isDigit
      | _ => false)
     || r == '.' :: el)

/-- re.search of the ZipStorage._matches pattern: some suffix position of the
lower-cased basename is a hit. -/
def zipSearch (tl el : Str) : Str → Bool
  | [] => zipHitHere tl el []
  | c :: cs => zipHitHere tl el (c :: cs) || zipSearch tl el cs

/-- ZipStorage._matches: the name pattern on the lower-cased basename, then
the scope constraint on the pre-filename path segments (no all-digit segment
for the root scope, the directory verbatim among the segments otherwise). -/
def zipMatches (name : Str) (directory : Option Str) (table ext : Str) : Bool :=
  let normalized := pyNormalizeSlashes name
  let baseLower := lowerStr (pyBasename normalized)
  let el := lowerStr ext
  let tl := lowerStr table
  if !zipSearch tl el baseLower then false
  else
    match directory with
    | none => !(pyDirParts normalized).any (fun part => pyIsDigit part)
    | some d => (pyDirParts normalized).contains d

/-- The candidate list of ZipStorage._find_member over the archive entries. -/
def zipFindList (entries : List FileEntry) (directory : Option Str) (table ext : Str) :
    List FileEntry :=
  entries.filter (fun e => zipMatches e.name directory table ext)

/-- ZipStorage._find_member: exactly one candidate is returned; zero raises
the not-found error, several the ambiguity error. -/
def zipFindMember (entries : List FileEntry) (directory : Option Str) (table ext : Str) :
    Except ResolutionError FileEntry :=
  match zipFindList entries directory table ext with
  | [e] => .ok e
  | [] => .error .notFound
  | _ => .error .ambiguous

/-- ZipStorage.open_schema: resolve the xsd entry in the root scope and
stream its bytes. -/
def zipOpenSchema (entries : List FileEntry) (entity : Str) : Except ResolutionError (List Nat) :=
  (zipFindMember entries none entity ("xsd".data)).map (fun e => e.bytes)

/-- ZipStorage.open_table: resolve the xml entry in the given scope and
stream its bytes. -/
def zipOpenTable (entries : List FileEntry) (table : Str) (region : Option Str) :
    Except ResolutionError (List Nat) :=
  (zipFindMember entries region table ("xml".data)).map (fun e => e.bytes)

/-- The all-digit pre-filename segments of one archive member name. -/
def zipRegionSegments (name : Str) : List Str :=
  (pyDirParts (pyNormalizeSlashes name)).filter (fun p => pyIsDigit p)

/-- ZipStorage.list_regions: the all-digit pre-filename segments across all
member names, de-duplicated (the source accumulates a set) and sorted. -/
def zipListRegions (names : List Str) : List Str :=
  sortStrs (pyDedup (names.flatMap zipRegionSegments))

/-- The database configuration record of pipeline.py.  The port is modelled
as a natural number; Python truthiness makes an empty string or a zero port
behave as absent. -/
structure DatabaseConfig where
  dsn : Option Str := none
  host : Option Str := none
  port : Option Nat := none
  user : Option Str := none
  password : Option Str := none
  database : Option Str := none

/-- Python truthiness of an optional string field. -/
def truthyStr : Option Str → Bool
  | none => false
  | some s => !s.isEmpty

/-- Python truthiness of an optional integer field. -/
def truthyNat : Option Nat → Bool
  | none => false
  | some n => n != 0

/-- Decimal rendering of the port, Python str(port). -/
def natToStr (n : Nat) : Str := Nat.toDigits 10 n

/-- _build_psql_command: the psql argument list and the PGPASSWORD
environment entry added on top of the inherited environment.  A truthy dsn
short-circuits; otherwise database, host, port and user are appended each
when truthy. -/
def buildPsqlCommand (config : DatabaseConfig) (dumpPath : Str) :
    List Str × Option Str :=
  let command := [("psql".data), ("--quiet".data), ("--file".data), dumpPath]
  let pass := if truthyStr config.password then config.password else none
  if truthyStr config.dsn then
    (command ++ [("--dbname".data), config.dsn.getD []], pass)
  else
    let command := if truthyStr config.database then
      command ++ [("--dbname".data), config.database.getD []] else command
    let command := if truthyStr config.host then
      command ++ [("--host".data), config.host.getD []] else command
    let command := if truthyNat config.port then
      command ++ [("--port".data), natToStr (config.port.getD 0)] else command
    let command := if truthyStr config.user then
      command ++ [("--username".data), config.user.getD []] else command
    (command, pass)

/-- _process_region, observed through the recovery copies it writes into the
invoking working directory and whether it returns normally.  The converter
and the psql invocation are external collaborators; their outcomes enter as
the flags convertOk (output.write returned), artifactExists (the per-region
dump file exists at the joined path) and importOk (_import_dump returned).
The artifact itself lives in a temporary directory dropped on scope exit. -/
def processRegion (tables regionTableList : List Str) (region : Str)
    (convertOk artifactExists importOk : Bool) : List Str × Bool :=
  let regionTables := tables.filter (fun t => regionTableList.contains t)
  if regionTables.isEmpty then ([], true)
  else if !convertOk then ([], false)
  else if importOk then ([], true)
  else if artifactExists then ([region ++ ("_failed.sql".data)], false)
  else ([], false)

/-- The observable events of one pipeline run, in program order. -/
inductive PEvent where
  | loaderCommon
  | loaderRegion (r : Str)
  | failedArtifact (r : Str)
  | retainArchive
deriving DecidableEq, Repr

/-- The failures execute_pipeline can raise in the modelled fragment.  The
source raises ValueError for an unknown requested region, carrying the sorted
list of all missing identifiers. -/
inductive PError where
  | sourceNotFound
  | formatError
  | importFailure
  | unknownRegions (missing : List Str)
deriving DecidableEq, Repr

/-- The environment a pipeline run observes: how the source was acquired,
what the archive contains, the external table classification
(Core.COMMON_TABLE_LIST / Core.REGION_TABLE_LIST) and the loader outcomes. -/
structure PipelineEnv where
  remote : Bool
  sourceExists : Bool
  zipNamed : Bool
  available : List Str
  commonTableList : List Str
  regionTableList : List Str
  commonImportOk : Bool
  regionImportOk : Str → Bool
  destExists : Bool

/-- The caller-facing options of execute_pipeline (the worker count does not
affect the modelled observables). -/
structure PipelineOptions where
  tables : List Str
  regions : List Str
  keepZip : Bool

/-- _collect_regions: an empty request selects every available region; an
explicit request is validated, the de-duplicated sorted list of requested
regions absent from the archive being fatal, and otherwise filters the
available order. -/
def collectRegions (available requested : List Str) : Except PError (List Str) :=
  if requested.isEmpty then .ok available
  else
    let missing := sortStrs (pyDedup
      (requested.filter (fun r => !available.contains r)))
    if !missing.isEmpty then .error (.unknownRegions missing)
    else .ok (available.filter (fun r => requested.contains r))

/-- One region task of the pool: the loader invocation for the region, and on
loader failure the recovery-artifact copy (the converter is modelled as
succeeding and producing the artifact; its failures are outside the claims
settled on this trace model). -/
def regionTaskEvents (env : PipelineEnv) (r : Str) : List PEvent × Bool :=
  if env.regionImportOk r then ([.loaderRegion r], true)
  else ([.loaderRegion r, .failedArtifact r], false)

/-- _run_region_pool: nothing happens when no requested table is regional;
otherwise every collected region runs (the pool lets in-flight siblings
finish after a failure) and the first failure is re-raised afterwards. -/
def runRegionPool (env : PipelineEnv) (tables collected : List Str) : List PEvent × Bool :=
  let regionTables := tables.filter (fun t => env.regionTableList.contains t)
  if regionTables.isEmpty then ([], true)
  else
    let runs := collected.map (fun r => regionTaskEvents env r)
    (runs.flatMap (fun p => p.1), runs.all (fun p => p.2))

/-- execute_pipeline as a trace over the modelled events: acquire and check
the source, run the common phase synchronously, then validate the requested
regions, then the region pool, then optionally retain a downloaded archive.
The common phase invokes the loader whenever a requested table is common; the
region validation happens after it, as in the source. -/
def executePipeline (env : PipelineEnv) (opts : PipelineOptions) :
    List PEvent × Option PError :=
  if !env.remote && !env.sourceExists then ([], some .sourceNotFound)
  else if !env.zipNamed then ([], some .formatError)
  else
    let commonTables := opts.tables.filter (fun t => env.commonTableList.contains t)
    let commonEvents : List PEvent := if commonTables.isEmpty then [] else [.loaderCommon]
    if !commonTables.isEmpty && !env.commonImportOk then
      (commonEvents, some .importFailure)
    else
      match collectRegions env.available opts.regions with
      | .error e => (commonEvents, some e)
      | .ok collected =>
        let pool := runRegionPool env opts.tables collected
        if !pool.2 then (commonEvents ++ pool.1, some .importFailure)
        else
          let retainEvents : List PEvent :=
            if env.remote && opts.keepZip && !env.destExists then [.retainArchive] else []
          (commonEvents ++ pool.1 ++ retainEvents, none)

/-- Modelled from the spec (section 4.1): the candidate filename forms
AS_{TABLE}_*.{ext} and AS_{TABLE}.{ext}, case-insensitive on name and
extension, to be compared with the matchers the code implements. -/
def specCandidate (basename table ext : Str) : Bool :=
  let b := lowerStr basename
  let t := lowerStr table
  let e := lowerStr ext
  (("as_".data ++ t ++ ['_']).isPrefixOf b &&
    ('.' :: e).isSuffixOf (b.drop ("as_".data ++ t ++ ['_']).length)) ||
  b == "as_".data ++ t ++ '.' :: e

theorem mem_pyDedup {α : Type} [DecidableEq α] {a : α} {l : List α} :
    a ∈ pyDedup l ↔ a ∈ l := List.mem_dedup

theorem nodup_pyDedup {α : Type} [DecidableEq α] (l : List α) :
    (pyDedup l).Nodup := List.nodup_dedup l

theorem mem_dirSearchList {files : List FileEntry} {table ext : Str} {x : FileEntry} :
    x ∈ dirSearchList files table ext ↔ x ∈ files ∧ dirGlobHit table ext x.name = true := by
  simp only [dirSearchList, pyDedup, List.mem_dedup, List.mem_flatMap, List.mem_filter,
    dirGlobHit, List.any_eq_true]
  constructor
  · rintro ⟨p, hp, hx, hg⟩
    exact ⟨hx, p, hp, hg⟩
  · rintro ⟨hx, p, hp, hg⟩
    exact ⟨p, hp, hx, hg⟩

theorem dirSearchList_nil (table ext : Str) : dirSearchList [] table ext = [] := by
  have h : (dirPatterns table ext).flatMap
      (fun p => ([] : List FileEntry).filter (fun f => globMatch p f.name)) = [] := by
    generalize dirPatterns table ext = ps
    induction ps with
    | nil => rfl
    | cons q qs ih => simp only [List.flatMap_cons, List.filter_nil, List.nil_append]; exact ih
  simp [dirSearchList, pyDedup, h]

theorem nodup_eq_singleton {α : Type} {l : List α} {f : α} (hn : l.Nodup)
    (hm : ∀ x, x ∈ l ↔ x = f) : l = [f] := by
  cases l with
  | nil => exact absurd ((hm f).mpr rfl) (by simp)
  | cons a t =>
    have ha : a = f := (hm a).mp (by simp)
    subst ha
    cases t with
    | nil => rfl
    | cons b u =>
      have hb : b = a := (hm b).mp (by simp)
      subst hb
      simp at hn

/-- C1: for both backends, any table, extension and scope: exactly one
matching container entry makes open_table / open_schema resolution return
that entry and stream exactly its bytes; zero matches fail with the
not-found error, two or more with the ambiguity error, and in the latter two
cases no entry is ever returned. -/
theorem claim_c1_unique_resolution :
    (∀ (files : List FileEntry) (table ext : Str), files.Nodup →
      (∀ f, files.filter (fun x => dirGlobHit table ext x.name) = [f] →
        dirSearch files table ext = .ok f ∧
        (dirSearch files table ext).map (fun e => e.bytes) = .ok f.bytes) ∧
      (files.filter (fun x => dirGlobHit table ext x.name) = [] →
        dirSearch files table ext = .error .notFound) ∧
      (2 ≤ (files.filter (fun x => dirGlobHit table ext x.name)).length →
        dirSearch files table ext = .error .ambiguous)) ∧
    (∀ (entries : List FileEntry) (directory : Option Str) (table ext : Str),
      (∀ e, entries.filter (fun x => zipMatches x.name directory table ext) = [e] →
        zipFindMember entries directory table ext = .ok e ∧
        (zipFindMember entries directory table ext).map (fun x => x.bytes) = .ok e.bytes) ∧
      (entries.filter (fun x => zipMatches x.name directory table ext) = [] →
        zipFindMember entries directory table ext = .error .notFound) ∧
      (2 ≤ (entries.filter (fun x => zipMatches x.name directory table ext)).length →
        zipFindMember entries directory table ext = .error .ambiguous)) := by
  constructor
  · intro files table ext hn
    refine ⟨?_, ?_, ?_⟩
    · intro f hf
      have hmem : ∀ x, x ∈ dirSearchList files table ext ↔ x = f := by
        intro x
        rw [mem_dirSearchList]
        constructor
        · rintro ⟨hx, hg⟩
          have hxf : x ∈ files.filter (fun x => dirGlobHit table ext x.name) :=
            List.mem_filter.mpr ⟨hx, hg⟩
          rw [hf] at hxf
          simpa using hxf
        · intro hxe
          have hxf : x ∈ files.filter (fun y => dirGlobHit table ext y.name) := by
            rw [hxe, hf]; simp
          exact ⟨(List.mem_filter.mp hxf).1, (List.mem_filter.mp hxf).2⟩
      have hlist : dirSearchList files table ext = [f] :=
        nodup_eq_singleton (nodup_pyDedup _) hmem
      refine ⟨by simp [dirSearch, hlist], by simp [dirSearch, hlist, Except.map]⟩
    · intro hf
      have hlist : dirSearchList files table ext = [] := by
        rw [List.eq_nil_iff_forall_not_mem]
        intro x hx
        rw [mem_dirSearchList] at hx
        have hxf : x ∈ files.filter (fun x => dirGlobHit table ext x.name) :=
          List.mem_filter.mpr ⟨hx.1, hx.2⟩
        rw [hf] at hxf
        exact absurd hxf (by simp)
      simp [dirSearch, hlist]
    · intro hlen
      have hfn : (files.filter (fun x => dirGlobHit table ext x.name)).Nodup :=
        hn.filter _
      cases hF : files.filter (fun x => dirGlobHit table ext x.name) with
      | nil => rw [hF] at hlen; simp at hlen
      | cons a t =>
        cases t with
        | nil => rw [hF] at hlen; simp at hlen
        | cons b rest =>
          have hab : a ≠ b := by
            rw [hF] at hfn
            simp [List.nodup_cons] at hfn
            intro h
            exact hfn.1.1 h
          have hamem : a ∈ dirSearchList files table ext := by
            apply mem_dirSearchList.mpr
            have hxf : a ∈ files.filter (fun x => dirGlobHit table ext x.name) := by
              rw [hF]; simp
            exact ⟨(List.mem_filter.mp hxf).1, (List.mem_filter.mp hxf).2⟩
          have hbmem : b ∈ dirSearchList files table ext := by
            apply mem_dirSearchList.mpr
            have hxf : b ∈ files.filter (fun x => dirGlobHit table ext x.name) := by
              rw [hF]; simp
            exact ⟨(List.mem_filter.mp hxf).1, (List.mem_filter.mp hxf).2⟩
          cases hL : dirSearchList files table ext with
          | nil => rw [hL] at hamem; exact absurd hamem (by simp)
          | cons x u =>
            cases u with
            | nil =>
              rw [hL] at hamem hbmem
              simp at hamem hbmem
              exact absurd (hamem.trans hbmem.symm) hab
            | cons y v => simp [dirSearch, hL]
  · intro entries directory table ext
    refine ⟨?_, ?_, ?_⟩
    · intro e he
      refine ⟨by simp [zipFindMember, zipFindList, he],
        by simp [zipFindMember, zipFindList, he, Except.map]⟩
    · intro he
      simp [zipFindMember, zipFindList, he]
    · intro hlen
      cases hF : entries.filter (fun x => zipMatches x.name directory table ext) with
      | nil => rw [hF] at hlen; simp at hlen
      | cons a t =>
        cases t with
        | nil => rw [hF] at hlen; simp at hlen
        | cons b rest => simp [zipFindMember, zipFindList, hF]

/-- Witness for C1 at concrete inputs: a two-match directory listing is
ambiguous, and a one-candidate archive resolves to that entry. -/
theorem claim_c1_unique_resolution_witness :
    dirSearch [⟨("AS_T_1.xml".data), [1]⟩, ⟨("AS_T_2.xml".data), [2]⟩]
      ("T".data) ("xml".data) = .error .ambiguous ∧
    zipFindMember [⟨("77/AS_T_1.xml".data), [9]⟩] (some ("77".data))
      ("T".data) ("xml".data) = .ok ⟨("77/AS_T_1.xml".data), [9]⟩ := by
  constructor
  · exact (claim_c1_unique_resolution.1
      [⟨("AS_T_1.xml".data), [1]⟩, ⟨("AS_T_2.xml".data), [2]⟩]
      ("T".data) ("xml".data) (by decide)).2.2 (by decide)
  · exact ((claim_c1_unique_resolution.2
      [⟨("77/AS_T_1.xml".data), [9]⟩] (some ("77".data))
      ("T".data) ("xml".data)).1 ⟨("77/AS_T_1.xml".data), [9]⟩ (by decide)).1

/-- C10: a missing base path makes list_regions return the empty list (the
FileNotFoundError of os.listdir is caught) while open_schema and open_table
over the missing tree fail with the not-found resolution error. -/
theorem claim_c10_missing_root :
    dirListRegions none = [] ∧
    (∀ (entity : Str), dirOpenSchema ⟨[], []⟩ entity = .error .notFound) ∧
    (∀ (table : Str) (region : Option Str),
      dirOpenTable ⟨[], []⟩ table region = .error .notFound) := by
  refine ⟨rfl, ?_, ?_⟩
  · intro entity
    simp [dirOpenSchema, dirSearch, dirSearchList_nil, Except.map]
  · intro table region
    cases region with
    | none => simp [dirOpenTable, dirSearch, dirSearchList_nil, Except.map]
    | some r => simp [dirOpenTable, dirSearch, dirSearchList_nil, Except.map, subdirFiles]

/-- C8: a truthy dsn makes the connection target the DSN string alone, with
host, port, user and database contributing nothing to the command; without a
dsn the target is composed of database, host, port and user, each appended
exactly when truthy; and in all cases the command is built without the
password, which reaches psql only as the PGPASSWORD environment entry. -/
theorem claim_c8_psql_command (config : DatabaseConfig) (dumpPath : Str) :
    (truthyStr config.dsn = true →
      (buildPsqlCommand config dumpPath).1 =
        [("psql".data), ("--quiet".data), ("--file".data), dumpPath,
         ("--dbname".data), config.dsn.getD []]) ∧
    (truthyStr config.dsn = false →
      (buildPsqlCommand config dumpPath).1 =
        [("psql".data), ("--quiet".data), ("--file".data), dumpPath] ++
        (if truthyStr config.database then
          [("--dbname".data), config.database.getD []] else []) ++
        (if truthyStr config.host then [("--host".data), config.host.getD []] else []) ++
        (if truthyNat config.port then
          [("--port".data), natToStr (config.port.getD 0)] else []) ++
        (if truthyStr config.user then [("--username".data), config.user.getD []] else [])) ∧
    ((buildPsqlCommand config dumpPath).1 =
      (buildPsqlCommand { config with password := none } dumpPath).1) ∧
    ((buildPsqlCommand config dumpPath).2 =
      if truthyStr config.password then config.password else none) := by
  refine ⟨?_, ?_, ?_, ?_⟩
  · intro h
    simp only [buildPsqlCommand]
    rw [if_pos h]
    rfl
  · intro h
    simp only [buildPsqlCommand]
    rw [if_neg (by simp [h])]
    by_cases hd : truthyStr config.database <;> by_cases hh : truthyStr config.host <;>
      by_cases hp : truthyNat config.port <;> by_cases hu : truthyStr config.user <;>
      simp [hd, hh, hp, hu]
  · by_cases h : truthyStr config.dsn <;>
      simp only [buildPsqlCommand] <;> simp [h]
  · by_cases h : truthyStr config.dsn <;> simp only [buildPsqlCommand] <;> simp [h]

/-- Witness for C8: with a DSN, a fully populated configuration produces the
DSN-only target, and the password stays out of the argument list. -/
theorem claim_c8_psql_command_witness :
    (buildPsqlCommand ⟨some ("d".data), some ("h".data), some 5, some ("u".data),
       some ("p".data), some ("db".data)⟩ ("dump.sql".data)).1 =
      [("psql".data), ("--quiet".data), ("--file".data), ("dump.sql".data),
       ("--dbname".data), ("d".data)] :=
  (claim_c8_psql_command ⟨some ("d".data), some ("h".data), some 5, some ("u".data),
       some ("p".data), some ("db".data)⟩ ("dump.sql".data)).1 (by decide)

/-- C7: when a region's import fails after the artifact file was produced,
the worker copies the artifact to the fixed recovery name
region_failed.sql in the invoking working directory before the failure
propagates; a run that returns successfully makes no recovery copy. -/
theorem claim_c7_failed_artifact (tables regionTableList : List Str) (region : Str)
    (convertOk artifactExists importOk : Bool) :
    ((tables.filter (fun t => regionTableList.contains t)).isEmpty = false →
      convertOk = true → artifactExists = true → importOk = false →
      processRegion tables regionTableList region convertOk artifactExists importOk =
        ([region ++ ("_failed.sql".data)], false)) ∧
    ((processRegion tables regionTableList region convertOk artifactExists importOk).2 = true →
      (processRegion tables regionTableList region convertOk artifactExists importOk).1 = []) := by
  constructor
  · intro h1 h2 h3 h4
    subst h2; subst h3; subst h4
    cases hF : tables.filter (fun t => regionTableList.contains t) with
    | nil => rw [hF] at h1; simp at h1
    | cons a t =>
      simp only [processRegion]
      rw [hF]
      rfl
  · intro h
    simp only [processRegion] at h ⊢
    cases hF : tables.filter (fun t => regionTableList.contains t) with
    | nil => rfl
    | cons a t =>
      rw [hF] at h
      cases convertOk <;> cases importOk <;> cases artifactExists <;> simp_all

/-- Witness for C7: one regional table, artifact produced, import failed:
the run copies the artifact to 77_failed.sql and propagates the failure. -/
theorem claim_c7_failed_artifact_witness :
    processRegion [("ADDR_OBJ".data)] [("ADDR_OBJ".data)] ("77".data) true true false =
      ([("77_failed.sql".data)], false) := by
  have h := (claim_c7_failed_artifact [("ADDR_OBJ".data)] [("ADDR_OBJ".data)] ("77".data)
    true true false).1 (by decide) rfl rfl rfl
  rw [h]
  rfl

theorem strLe_refl (a : Str) : strLe a a = true := by
  induction a with
  | nil => rfl
  | cons c cs ih => simp [strLe, ih]

theorem strLe_total : ∀ (a b : Str), strLe a b = true ∨ strLe b a = true
  | [], _ => Or.inl rfl
  | _ :: _, [] => Or.inr rfl
  | a :: as, b :: bs => by
    by_cases h : a = b
    · subst h
      rcases strLe_total as bs with h2 | h2
      · left; simp [strLe, h2]
      · right; simp [strLe, h2]
    · rcases lt_trichotomy a b with hlt | heq | hgt
      · left; simp [strLe, h, hlt]
      · exact absurd heq h
      · right; simp [strLe, ne_of_lt hgt, hgt]

theorem strLe_trans : ∀ (a b c : Str),
    strLe a b = true → strLe b c = true → strLe a c = true
  | [], _, _ => by intro _ _; rfl
  | a :: as, [], _ => by intro h _; simp [strLe] at h
  | _ :: _, _ :: _, [] => by intro _ h; simp [strLe] at h
  | a :: as, b :: bs, c :: cs => by
    intro hab hbc
    by_cases h1 : a = b <;> by_cases h2 : b = c
    · subst h1; subst h2
      simp [strLe] at hab hbc ⊢
      exact strLe_trans as bs cs hab hbc
    · subst h1
      simp [strLe, h2] at hbc ⊢
      exact hbc
    · subst h2
      simp [strLe, h1] at hab ⊢
      exact hab
    · simp [strLe, h1, h2] at hab hbc
      have hac : a < c := lt_trans hab hbc
      simp [strLe, ne_of_lt hac, hac]

theorem mem_insertStr {x a : Str} : ∀ {l : List Str},
    a ∈ insertStr x l ↔ a = x ∨ a ∈ l := by
  intro l
  induction l with
  | nil => simp [insertStr]
  | cons y ys ih =>
    by_cases h : strLe x y
    · simp [insertStr, h]
    · simp only [insertStr, h]
      simp [ih]
      tauto

theorem mem_sortStrs {a : Str} : ∀ {l : List Str}, a ∈ sortStrs l ↔ a ∈ l := by
  intro l
  induction l with
  | nil => simp [sortStrs]
  | cons x xs ih => simp [sortStrs, mem_insertStr, ih]

theorem sorted_insertStr {x : Str} : ∀ {l : List Str},
    l.Pairwise (fun a b => strLe a b = true) →
    (insertStr x l).Pairwise (fun a b => strLe a b = true) := by
  intro l
  induction l with
  | nil => intro _; simp [insertStr]
  | cons y ys ih =>
    intro hs
    rw [List.pairwise_cons] at hs
    by_cases h : strLe x y
    · simp only [insertStr]
      rw [if_pos h, List.pairwise_cons]
      constructor
      · intro b hb
        rcases List.mem_cons.mp hb with rfl | hb2
        · exact h
        · exact strLe_trans x y b h (hs.1 b hb2)
      · rw [List.pairwise_cons]
        exact hs
    · simp only [insertStr]
      rw [if_neg h, List.pairwise_cons]
      constructor
      · intro b hb
        rcases mem_insertStr.mp hb with rfl | hb2
        · rcases strLe_total b y with h2 | h2
          · exact absurd h2 h
          · exact h2
        · exact hs.1 b hb2
      · exact ih hs.2
  
theorem sorted_sortStrs : ∀ (l : List Str),
    (sortStrs l).Pairwise (fun a b => strLe a b = true)
  | [] => by simp [sortStrs]
  | x :: xs => by
    simp only [sortStrs]
    exact sorted_insertStr (sorted_sortStrs xs)

theorem insertStr_perm (x : Str) : ∀ (l : List Str), List.Perm (insertStr x l) (x :: l)
  | [] => List.Perm.refl _
  | y :: ys => by
    by_cases h : strLe x y
    · simp only [insertStr]
      rw [if_pos h]
    · simp only [insertStr]
      rw [if_neg h]
      exact ((insertStr_perm x ys).cons y).trans (List.Perm.swap x y ys)

theorem sortStrs_perm : ∀ (l : List Str), List.Perm (sortStrs l) l
  | [] => List.Perm.refl _
  | x :: xs => (insertStr_perm x (sortStrs xs)).trans ((sortStrs_perm xs).cons x)

theorem nodup_sortStrs {l : List Str} (h : l.Nodup) : (sortStrs l).Nodup :=
  (sortStrs_perm l).nodup_iff.mpr h

theorem mem_dirListRegions {entries : List (Str × Bool)} {r : Str} :
    r ∈ dirListRegions (some entries) ↔ ((r, true) ∈ entries ∧ pyIsDigit r = true) := by
  simp only [dirListRegions, mem_sortStrs, List.mem_map, List.mem_filter]
  constructor
  · rintro ⟨e, ⟨he, hp⟩, rfl⟩
    rw [Bool.and_eq_true] at hp
    rcases e with ⟨n, d⟩
    rcases hp with ⟨hd, hdt⟩
    simp only at hd hdt ⊢
    subst hdt
    exact ⟨he, hd⟩
  · rintro ⟨he, hd⟩
    exact ⟨(r, true), ⟨he, by simp [hd]⟩, rfl⟩

theorem mem_zipListRegions {names : List Str} {r : Str} :
    r ∈ zipListRegions names ↔
      ∃ n, n ∈ names ∧ r ∈ pyDirParts (pyNormalizeSlashes n) ∧ pyIsDigit r = true := by
  simp only [zipListRegions, mem_sortStrs, mem_pyDedup, List.mem_flatMap,
    zipRegionSegments, List.mem_filter]

/-- C6: list_regions on a directory backend returns exactly the
all-digit-named immediate child directories of the base path, ascending as
strings; on a zip backend exactly the all-digit pre-filename path segments
across all entries, de-duplicated and sorted; and both return an empty
sequence, not an error, when no region is present. -/
theorem claim_c6_list_regions :
    (∀ (entries : List (Str × Bool)),
      (dirListRegions (some entries)).Pairwise (fun a b => strLe a b = true) ∧
      (∀ r, r ∈ dirListRegions (some entries) ↔
        ((r, true) ∈ entries ∧ pyIsDigit r = true)) ∧
      ((entries.map (fun e => e.1)).Nodup → (dirListRegions (some entries)).Nodup) ∧
      ((∀ e, e ∈ entries → pyIsDigit e.1 = false ∨ e.2 = false) →
        dirListRegions (some entries) = [])) ∧
    (∀ (names : List Str),
      (zipListRegions names).Pairwise (fun a b => strLe a b = true) ∧
      (zipListRegions names).Nodup ∧
      (∀ r, r ∈ zipListRegions names ↔
        ∃ n, n ∈ names ∧ r ∈ pyDirParts (pyNormalizeSlashes n) ∧ pyIsDigit r = true) ∧
      ((∀ n, n ∈ names → ∀ p, p ∈ pyDirParts (pyNormalizeSlashes n) → pyIsDigit p = false) →
        zipListRegions names = [])) := by
  constructor
  · intro entries
    refine ⟨sorted_sortStrs _, fun r => mem_dirListRegions, ?_, ?_⟩
    · intro hn
      apply nodup_sortStrs
      have hs : List.Sublist
          ((entries.filter (fun e => pyIsDigit e.1 && e.2)).map (fun e => e.1))
          (entries.map (fun e => e.1)) :=
        (List.filter_sublist entries).map (fun e => e.1)
      exact List.Nodup.sublist hs hn
    · intro hempty
      rw [List.eq_nil_iff_forall_not_mem]
      intro r hr
      rcases mem_dirListRegions.mp hr with ⟨he, hd⟩
      rcases hempty (r, true) he with h | h
      · rw [hd] at h; exact absurd h (by simp)
      · exact absurd h (by simp)
  · intro names
    refine ⟨sorted_sortStrs _, nodup_sortStrs (List.nodup_dedup _),
      fun r => mem_zipListRegions, ?_⟩
    intro hempty
    rw [List.eq_nil_iff_forall_not_mem]
    intro r hr
    rcases mem_zipListRegions.mp hr with ⟨n, hn, hp, hd⟩
    rw [hempty n hn r hp] at hd
    exact Bool.false_ne_true hd

/-- Witness for C6 at concrete listings: directory regions are the sorted
digit child directories; zip regions the sorted digit segments. -/
theorem claim_c6_list_regions_witness :
    (dirListRegions (some [(("78".data), true), (("ab".data), true), (("77".data), true),
        (("5".data), false)])).Nodup ∧
    (("77".data) ∈ zipListRegions [("78/AS_X.XML".data), ("77/AS_Y.XML".data)] ↔
      ∃ n, n ∈ [("78/AS_X.XML".data), ("77/AS_Y.XML".data)] ∧
        ("77".data) ∈ pyDirParts (pyNormalizeSlashes n) ∧ pyIsDigit ("77".data) = true) := by
  constructor
  · exact (claim_c6_list_regions.1 [(("78".data), true), (("ab".data), true),
      (("77".data), true), (("5".data), false)]).2.2.1 (by decide)
  · exact (claim_c6_list_regions.2 [("78/AS_X.XML".data), ("77/AS_Y.XML".data)]).2.2.1 ("77".data)

/-- C2 counterexample: the pipeline requests the common table HOUSES and the
absent region 99; the run invokes the loader for the common phase and only
afterwards raises the unknown-region failure, so a loader invocation
precedes the error, contradicting the claim that none does. -/
theorem claim_c2_counterexample :
    executePipeline
      ⟨false, true, true, [("77".data)], [("HOUSES".data)], [("ADDR_OBJ".data)],
       true, fun _ => true, false⟩
      ⟨[("HOUSES".data)], [("99".data)], false⟩ =
      ([PEvent.loaderCommon], some (PError.unknownRegions [("99".data)])) ∧
    PEvent.loaderCommon ∈ [PEvent.loaderCommon] := by
  constructor
  · rfl
  · simp

/-- C2 amended: an explicitly requested region absent from the archive makes
execute_pipeline fail with the unknown-region error listing exactly the
missing requested identifiers, before the loader is invoked for any region:
the trace carries no regional loader invocation and no recovery copy.  The
common-table phase, including its loader invocation when a common table was
requested, runs before this validation, as the counterexample shows, so the
error precedes only the regional loader invocations. -/
theorem claim_c2_unknown_region (env : PipelineEnv) (opts : PipelineOptions) (r : Str)
    (hsrc : env.remote = true ∨ env.sourceExists = true)
    (hzip : env.zipNamed = true)
    (hcommon : (opts.tables.filter (fun t => env.commonTableList.contains t)).isEmpty = true ∨
      env.commonImportOk = true)
    (hr : r ∈ opts.regions) (hmiss : r ∉ env.available) :
    ∃ missing,
      (executePipeline env opts).2 = some (PError.unknownRegions missing) ∧
      r ∈ missing ∧
      (∀ q, q ∈ missing ↔ (q ∈ opts.regions ∧ q ∉ env.available)) ∧
      (∀ q, PEvent.loaderRegion q ∉ (executePipeline env opts).1) ∧
      (∀ q, PEvent.failedArtifact q ∉ (executePipeline env opts).1) := by
  have h1 : (!env.remote && !env.sourceExists) = false := by
    rcases hsrc with h | h <;> simp [h]
  have h3 : (!(opts.tables.filter (fun t => env.commonTableList.contains t)).isEmpty &&
      !env.commonImportOk) = false := by
    rcases hcommon with h | h
    · rw [h]; rfl
    · rw [h]; simp
  have hreq : opts.regions.isEmpty = false := by
    cases hq : opts.regions with
    | nil => rw [hq] at hr; simp at hr
    | cons a t => rfl
  have hrmiss : r ∈ sortStrs (pyDedup
      (opts.regions.filter (fun x => !env.available.contains x))) := by
    rw [mem_sortStrs, mem_pyDedup, List.mem_filter]
    exact ⟨hr, by simp [hmiss]⟩
  have hmissne : (sortStrs (pyDedup
      (opts.regions.filter (fun x => !env.available.contains x)))).isEmpty = false := by
    cases hq : sortStrs (pyDedup
        (opts.regions.filter (fun x => !env.available.contains x))) with
    | nil => rw [hq] at hrmiss; simp at hrmiss
    | cons a t => rfl
  have hcoll : collectRegions env.available opts.regions =
      .error (.unknownRegions (sortStrs (pyDedup
        (opts.regions.filter (fun x => !env.available.contains x))))) := by
    simp only [collectRegions, hreq, hmissne]
    simp
  have hrun : executePipeline env opts =
      ((if (opts.tables.filter (fun t => env.commonTableList.contains t)).isEmpty
        then ([] : List PEvent) else [PEvent.loaderCommon]),
       some (PError.unknownRegions (sortStrs (pyDedup
         (opts.regions.filter (fun x => !env.available.contains x)))))) := by
    simp only [executePipeline, h1, h3, hzip, hcoll]
    simp
  refine ⟨sortStrs (pyDedup (opts.regions.filter (fun x => !env.available.contains x))),
    ?_, hrmiss, ?_, ?_, ?_⟩
  · rw [hrun]
  · intro q
    rw [mem_sortStrs, mem_pyDedup, List.mem_filter]
    simp
  · intro q
    rw [hrun]
    by_cases hce : (opts.tables.filter (fun t => env.commonTableList.contains t)).isEmpty <;>
      simp [hce]
  · intro q
    rw [hrun]
    by_cases hce : (opts.tables.filter (fun t => env.commonTableList.contains t)).isEmpty <;>
      simp [hce]

/-- Witness for C2 amended: concrete run with one missing requested region
and no common tables: the failure lists the missing region and no regional
loader ran. -/
theorem claim_c2_unknown_region_witness :
    ∃ missing,
      (executePipeline
        ⟨false, true, true, [("77".data)], [], [("ADDR_OBJ".data)],
         true, fun _ => true, false⟩
        ⟨[("ADDR_OBJ".data)], [("99".data)], false⟩).2 =
        some (PError.unknownRegions missing) ∧
      ("99".data) ∈ missing ∧
      (∀ q, q ∈ missing ↔ (q ∈ [("99".data)] ∧ q ∉ [("77".data)])) ∧
      (∀ q, PEvent.loaderRegion q ∉ (executePipeline
        ⟨false, true, true, [("77".data)], [], [("ADDR_OBJ".data)],
         true, fun _ => true, false⟩
        ⟨[("ADDR_OBJ".data)], [("99".data)], false⟩).1) ∧
      (∀ q, PEvent.failedArtifact q ∉ (executePipeline
        ⟨false, true, true, [("77".data)], [], [("ADDR_OBJ".data)],
         true, fun _ => true, false⟩
        ⟨[("ADDR_OBJ".data)], [("99".data)], false⟩).1) :=
  claim_c2_unknown_region
    ⟨false, true, true, [("77".data)], [], [("ADDR_OBJ".data)],
     true, fun _ => true, false⟩
    ⟨[("ADDR_OBJ".data)], [("99".data)], false⟩ ("99".data)
    (Or.inr rfl) rfl (Or.inl (by decide)) (by decide) (by decide)

theorem retain_not_mem_pool (env : PipelineEnv) (tables collected : List Str) :
    PEvent.retainArchive ∉ (runRegionPool env tables collected).1 := by
  simp only [runRegionPool]
  by_cases h : (tables.filter (fun t => env.regionTableList.contains t)).isEmpty
  · rw [if_pos h]
    simp
  · rw [if_neg h]
    intro hmem
    rw [List.mem_flatMap] at hmem
    rcases hmem with ⟨p, hp, hin⟩
    rw [List.mem_map] at hp
    rcases hp with ⟨reg, _, rfl⟩
    by_cases hok : env.regionImportOk reg <;> simp [regionTaskEvents, hok] at hin

/-- C9: in a run of execute_pipeline that completes successfully, the source
archive is copied into the invoking working directory exactly when it was
remote-fetched, retention was requested and no file of that name already
exists there; an existing file suppresses the copy (never overwritten) and a
local source is never copied. -/
theorem claim_c9_archive_retention (env : PipelineEnv) (opts : PipelineOptions)
    (events : List PEvent) (h : executePipeline env opts = (events, none)) :
    PEvent.retainArchive ∈ events ↔
      (env.remote = true ∧ opts.keepZip = true ∧ env.destExists = false) := by
  simp only [executePipeline] at h
  split at h
  · rw [Prod.mk.injEq] at h
    exact absurd h.2 (by simp)
  · split at h
    · rw [Prod.mk.injEq] at h
      exact absurd h.2 (by simp)
    · split at h
      · rw [Prod.mk.injEq] at h
        exact absurd h.2 (by simp)
      · split at h
        · rw [Prod.mk.injEq] at h
          exact absurd h.2 (by simp)
        · rename_i collected heq
          split at h
          · rw [Prod.mk.injEq] at h
            exact absurd h.2 (by simp)
          · rw [Prod.mk.injEq] at h
            rw [← h.1]
            constructor
            · intro hmem
              rcases List.mem_append.mp hmem with hmem2 | hret
              · rcases List.mem_append.mp hmem2 with hc | hpool
                · by_cases hce :
                    (opts.tables.filter (fun t => env.commonTableList.contains t)).isEmpty
                  · rw [if_pos hce] at hc
                    exact absurd hc (by simp)
                  · rw [if_neg hce] at hc
                    exact absurd hc (by simp)
                · exact absurd hpool (retain_not_mem_pool env opts.tables collected)
              · by_cases hcond : (env.remote && opts.keepZip && !env.destExists) = true
                · rcases Bool.and_eq_true_iff.mp hcond with ⟨hrk, hd⟩
                  rcases Bool.and_eq_true_iff.mp hrk with ⟨hrm, hk⟩
                  exact ⟨hrm, hk, by simpa using hd⟩
                · rw [if_neg hcond] at hret
                  exact absurd hret (by simp)
            · rintro ⟨hrm, hk, hd⟩
              apply List.mem_append.mpr
              right
              rw [if_pos (by simp [hrm, hk, hd])]
              simp

/-- Witness for C9: a remote-fetched archive with retention requested and no
existing destination file: the successful trace retains the archive. -/
theorem claim_c9_archive_retention_witness :
    PEvent.retainArchive ∈ [PEvent.retainArchive] :=
  (claim_c9_archive_retention
    ⟨true, true, true, [("77".data)], [], [], true, fun _ => true, false⟩
    ⟨[], [], true⟩ [PEvent.retainArchive] rfl).mpr ⟨rfl, rfl, rfl⟩

/-- Characters that fnmatch treats literally in the modelled fragment. -/
def globPlain (s : Str) : Bool := s.all (fun c => c != '*' && c != '?')

/-- Names free of both path separators, the shape of one filename component. -/
def slashFree (s : Str) : Bool := s.all (fun c => c != '/' && c != '\\')

theorem pyNormalizeSlashes_of_noBackslash : ∀ {s : Str},
    s.all (fun c => c != '\\') = true → pyNormalizeSlashes s = s := by
  intro s
  induction s with
  | nil => intro _; rfl
  | cons c cs ih =>
    intro h
    rw [List.all_cons, Bool.and_eq_true] at h
    have hc : ¬c = '\\' := by simpa using h.1
    simp only [pyNormalizeSlashes, List.map_cons]
    rw [if_neg hc]
    have h2 := ih h.2
    simp only [pyNormalizeSlashes] at h2
    rw [h2]

theorem splitOnChar_ne_nil (sep : Char) : ∀ (s : Str), splitOnChar sep s ≠ []
  | [] => by simp [splitOnChar]
  | c :: cs => by
    simp only [splitOnChar]
    cases hs : splitOnChar sep cs with
    | nil => simp
    | cons h t => by_cases hc : c = sep <;> simp [hc]

theorem splitOnChar_not_mem {sep : Char} : ∀ {s : Str},
    sep ∉ s → splitOnChar sep s = [s] := by
  intro s
  induction s with
  | nil => intro _; rfl
  | cons c cs ih =>
    intro h
    have hc : ¬c = sep := fun he => h (he ▸ List.mem_cons_self c cs)
    have hcs : sep ∉ cs := fun hm => h (List.mem_cons_of_mem c hm)
    simp only [splitOnChar]
    rw [ih hcs]
    simp only []
    rw [if_neg hc]

theorem splitOnChar_append {sep : Char} {b : Str} : ∀ {a : Str}, sep ∉ a →
    splitOnChar sep (a ++ sep :: b) = a :: splitOnChar sep b := by
  intro a
  induction a with
  | nil =>
    intro _
    simp only [List.nil_append, splitOnChar]
    cases hs : splitOnChar sep b with
    | nil => exact absurd hs (splitOnChar_ne_nil sep b)
    | cons h t =>
      simp
  | cons c cs ih =>
    intro h
    have hc : ¬c = sep := fun he => h (he ▸ List.mem_cons_self c cs)
    have hcs : sep ∉ cs := fun hm => h (List.mem_cons_of_mem c hm)
    simp only [List.cons_append, splitOnChar, List.append_eq]
    rw [ih hcs]
    simp only []
    rw [if_neg hc]

theorem slashFree_not_mem_slash {s : Str} (h : slashFree s = true) : ('/' : Char) ∉ s := by
  intro hm
  rw [slashFree, List.all_eq_true] at h
  have := h '/' hm
  simp at this

theorem slashFree_noBackslash {s : Str} (h : slashFree s = true) :
    s.all (fun c => c != '\\') = true := by
  rw [slashFree, List.all_eq_true] at h
  rw [List.all_eq_true]
  intro c hc
  have h2 := h c hc
  rw [Bool.and_eq_true] at h2
  exact h2.2

/-- Path components of a one-level region entry: the region as the only
pre-filename segment and the filename as basename. -/
theorem entry_parts {g n : Str} (hg : slashFree g = true) (hn : slashFree n = true) :
    pyDirParts (pyNormalizeSlashes (g ++ '/' :: n)) = [g] ∧
    pyBasename (pyNormalizeSlashes (g ++ '/' :: n)) = n := by
  have hnormAll : (g ++ '/' :: n).all (fun c => c != '\\') = true := by
    rw [List.all_append]
    rw [Bool.and_eq_true]
    refine ⟨slashFree_noBackslash hg, ?_⟩
    rw [List.all_cons, Bool.and_eq_true]
    exact ⟨by decide, slashFree_noBackslash hn⟩
  rw [pyNormalizeSlashes_of_noBackslash hnormAll]
  have hsplit : pySplitSlash (g ++ '/' :: n) = [g, n] := by
    rw [pySplitSlash, splitOnChar_append (slashFree_not_mem_slash hg),
      splitOnChar_not_mem (slashFree_not_mem_slash hn)]
  rw [pyDirParts, pyBasename, hsplit]
  exact ⟨rfl, rfl⟩

/-- Path components of a root entry: no pre-filename segment. -/
theorem root_parts {n : Str} (hn : slashFree n = true) :
    pyDirParts (pyNormalizeSlashes n) = [] ∧ pyBasename (pyNormalizeSlashes n) = n := by
  rw [pyNormalizeSlashes_of_noBackslash (slashFree_noBackslash hn)]
  have hsplit : pySplitSlash n = [n] :=
    splitOnChar_not_mem (slashFree_not_mem_slash hn)
  rw [pyDirParts, pyBasename, hsplit]
  exact ⟨rfl, rfl⟩

theorem globMatch_lit : ∀ (p s : Str), globPlain p = true →
    (globMatch p s = true ↔ s = p)
  | [], s => by
    intro _
    simp [globMatch, List.isEmpty_iff]
  | p :: ps, s => by
    intro h
    rw [globPlain, List.all_cons, Bool.and_eq_true] at h
    obtain ⟨hp, hps⟩ := h
    rw [Bool.and_eq_true] at hp
    have hstar : ¬p = '*' := by simpa using hp.1
    have hq : ¬p = '?' := by simpa using hp.2
    cases s with
    | nil =>
      simp only [globMatch]
      rw [if_neg hstar]
      simp
    | cons c cs =>
      simp only [globMatch]
      rw [if_neg hstar]
      rw [Bool.and_eq_true, Bool.or_eq_true]
      constructor
      · rintro ⟨hc, hm⟩
        rcases hc with hc | hc
        · exact absurd (of_decide_eq_true hc) hq
        · have hpc : p = c := of_decide_eq_true hc
          have hcs : cs = ps := (globMatch_lit ps cs hps).mp hm
          rw [hpc, hcs]
      · intro he
        rw [List.cons_eq_cons] at he
        refine ⟨Or.inr (decide_eq_true he.1.symm), ?_⟩
        exact (globMatch_lit ps cs hps).mpr he.2

theorem globMatch_star (p : Str) (s : Str) : globMatch ('*' :: p) s = true ↔
    ∃ t, List.IsSuffix t s ∧ globMatch p t = true := by
  simp only [globMatch]
  rw [if_pos trivial, List.any_eq_true]
  constructor
  · rintro ⟨t, ht, hm⟩
    exact ⟨t, (List.mem_tails t s).mp ht, hm⟩
  · rintro ⟨t, ht, hm⟩
    exact ⟨t, (List.mem_tails t s).mpr ht, hm⟩

theorem globMatch_append_lit : ∀ (l p s : Str), globPlain l = true →
    (globMatch (l ++ p) s = true ↔ ∃ s2, s = l ++ s2 ∧ globMatch p s2 = true)
  | [], p, s => by
    intro _
    simp
  | c :: cs, p, s => by
    intro h
    rw [globPlain, List.all_cons, Bool.and_eq_true] at h
    obtain ⟨hc, hcs⟩ := h
    rw [Bool.and_eq_true] at hc
    have hstar : ¬c = '*' := by simpa using hc.1
    have hq : ¬c = '?' := by simpa using hc.2
    cases s with
    | nil =>
      rw [List.cons_append]
      simp only [globMatch]
      rw [if_neg hstar]
      simp
    | cons d ds =>
      rw [List.cons_append]
      simp only [globMatch]
      rw [if_neg hstar]
      rw [Bool.and_eq_true, Bool.or_eq_true]
      constructor
      · rintro ⟨hcd, hm⟩
        rcases hcd with hcd | hcd
        · exact absurd (of_decide_eq_true hcd) hq
        · have hcd2 : c = d := of_decide_eq_true hcd
          rcases (globMatch_append_lit cs p ds hcs).mp hm with ⟨s2, rfl, hm2⟩
          exact ⟨s2, by rw [hcd2, List.cons_append], hm2⟩
      · rintro ⟨s2, he, hm2⟩
        rw [List.cons_append, List.cons_eq_cons] at he
        refine ⟨Or.inr (decide_eq_true he.1.symm), ?_⟩
        exact (globMatch_append_lit cs p ds hcs).mpr ⟨s2, he.2, hm2⟩

theorem globMatch_star_pattern (A B s : Str) (hA : globPlain A = true)
    (hB : globPlain B = true) :
    globMatch (A ++ '*' :: B) s = true ↔ ∃ mid, s = A ++ (mid ++ B) := by
  rw [globMatch_append_lit A ('*' :: B) s hA]
  constructor
  · rintro ⟨s2, rfl, hm⟩
    rw [globMatch_star] at hm
    rcases hm with ⟨t, ⟨u, hu⟩, hm2⟩
    have ht : t = B := (globMatch_lit B t hB).mp hm2
    exact ⟨u, by rw [← hu, ht]⟩
  · rintro ⟨mid, rfl⟩
    refine ⟨mid ++ B, rfl, ?_⟩
    rw [globMatch_star]
    exact ⟨B, ⟨mid, rfl⟩, (globMatch_lit B B hB).mpr rfl⟩

theorem zipHitHere_iff (tl el s : Str) :
    zipHitHere tl el s = true ↔
      ((∃ d post, s = "as_".data ++ tl ++ '_' :: d :: post ∧ d.isDigit = true) ∨
       s = "as_".data ++ tl ++ '.' :: el) := by
  simp only [zipHitHere, Bool.and_eq_true, Bool.or_eq_true]
  constructor
  · rintro ⟨hpre, hrest⟩
    rcases List.isPrefixOf_iff_prefix.mp hpre with ⟨rest, hr⟩
    rw [← hr, List.drop_left] at hrest
    rcases hrest with hm | hb
    · cases rest with
      | nil => simp at hm
      | cons u us =>
        cases us with
        | nil => simp at hm
        | cons d post =>
          rw [Bool.and_eq_true] at hm
          have hu : u = '_' := of_decide_eq_true hm.1
          left
          refine ⟨d, post, ?_, hm.2⟩
          rw [← hr, hu]
    · have hb2 : rest = '.' :: el := by simpa using hb
      right
      rw [← hr, hb2]
  · intro h
    rcases h with ⟨d, post, he, hd⟩ | he
    · have hr : s = ("as_".data ++ tl) ++ '_' :: d :: post := by
        rw [he]
      refine ⟨List.isPrefixOf_iff_prefix.mpr ⟨'_' :: d :: post, hr.symm⟩, ?_⟩
      rw [hr, List.drop_left]
      left
      simp [hd]
    · have hr : s = ("as_".data ++ tl) ++ '.' :: el := by
        rw [he]
      refine ⟨List.isPrefixOf_iff_prefix.mpr ⟨'.' :: el, hr.symm⟩, ?_⟩
      rw [hr, List.drop_left]
      right
      simp

theorem zipSearch_iff (tl el : Str) : ∀ (s : Str),
    zipSearch tl el s = true ↔ ∃ pre suf, s = pre ++ suf ∧ zipHitHere tl el suf = true
  | [] => by
    simp only [zipSearch]
    constructor
    · intro h
      exact ⟨[], [], rfl, h⟩
    · rintro ⟨pre, suf, he, h⟩
      rcases List.append_eq_nil.mp he.symm with ⟨rfl, rfl⟩
      exact h
  | c :: cs => by
    simp only [zipSearch, Bool.or_eq_true]
    rw [zipSearch_iff tl el cs]
    constructor
    · rintro (h | ⟨pre, suf, rfl, h⟩)
      · exact ⟨[], c :: cs, rfl, h⟩
      · exact ⟨c :: pre, suf, rfl, h⟩
    · rintro ⟨pre, suf, he, h⟩
      cases pre with
      | nil =>
        rw [List.nil_append] at he
        exact Or.inl (he ▸ h)
      | cons x xs =>
        rw [List.cons_append, List.cons_eq_cons] at he
        exact Or.inr ⟨xs, suf, he.2, h⟩

theorem zipMatches_iff (name : Str) (directory : Option Str) (table ext : Str) :
    zipMatches name directory table ext = true ↔
      zipSearch (lowerStr table) (lowerStr ext)
        (lowerStr (pyBasename (pyNormalizeSlashes name))) = true ∧
      (match directory with
       | none => ∀ p, p ∈ pyDirParts (pyNormalizeSlashes name) → pyIsDigit p = false
       | some d => d ∈ pyDirParts (pyNormalizeSlashes name)) := by
  simp only [zipMatches]
  by_cases hs : zipSearch (lowerStr table) (lowerStr ext)
      (lowerStr (pyBasename (pyNormalizeSlashes name))) = true
  · rw [hs]
    simp only [Bool.not_true, Bool.false_eq_true, if_false]
    cases directory with
    | none =>
      simp only []
      rw [Bool.not_eq_true', List.any_eq_false]
      simp
    | some d =>
      simp only []
      simp
  · rw [Bool.not_eq_true] at hs
    rw [hs]
    simp only [Bool.not_false, if_true]
    simp [hs]

theorem globPlain_append (a b : Str) : globPlain (a ++ b) = (globPlain a && globPlain b) :=
  List.all_append

theorem globPlain_cons (c : Char) (s : Str) :
    globPlain (c :: s) = ((c != '*' && c != '?') && globPlain s) :=
  List.all_cons

theorem dirGlobHit_iff (table ext name : Str) (hpt : globPlain table = true)
    (hpl : globPlain (lowerStr ext) = true) (hpu : globPlain (upperStr ext) = true) :
    dirGlobHit table ext name = true ↔
      ∃ v, (v = lowerStr ext ∨ v = upperStr ext) ∧
        ((∃ mid, name = "AS_".data ++ table ++ '_' :: (mid ++ '.' :: v)) ∨
         name = "AS_".data ++ table ++ '.' :: v) := by
  have hA : globPlain ("AS_".data ++ table ++ ['_']) = true := by
    rw [globPlain_append, globPlain_append, hpt]
    decide
  have hplainB : ∀ v, globPlain v = true → globPlain ('.' :: v) = true := by
    intro v hv
    rw [globPlain_cons, hv]
    decide
  have hplain2 : ∀ v, globPlain v = true →
      globPlain ("AS_".data ++ table ++ '.' :: v) = true := by
    intro v hv
    rw [globPlain_append, globPlain_append, hpt, hplainB v hv]
    decide
  rw [dirGlobHit, List.any_eq_true]
  constructor
  · rintro ⟨p, hp, hm⟩
    rw [dirPatterns, List.mem_flatMap] at hp
    rcases hp with ⟨v, hv, hpv⟩
    rw [mem_pyDedup] at hv
    have hv2 : v = lowerStr ext ∨ v = upperStr ext := by simpa using hv
    have hvp : globPlain v = true := by
      rcases hv2 with rfl | rfl
      · exact hpl
      · exact hpu
    have hpv2 : p = "AS_".data ++ table ++ '_' :: '*' :: '.' :: v ∨
        p = "AS_".data ++ table ++ '.' :: v := by simpa using hpv
    rcases hpv2 with rfl | rfl
    · rw [show "AS_".data ++ table ++ '_' :: '*' :: '.' :: v =
          ("AS_".data ++ table ++ ['_']) ++ '*' :: '.' :: v by simp] at hm
      rw [globMatch_star_pattern _ _ _ hA (hplainB v hvp)] at hm
      rcases hm with ⟨mid, hmid⟩
      refine ⟨v, hv2, Or.inl ⟨mid, ?_⟩⟩
      rw [hmid]
      simp
    · rw [globMatch_lit _ _ (hplain2 v hvp)] at hm
      exact ⟨v, hv2, Or.inr hm⟩
  · rintro ⟨v, hv2, hcase⟩
    have hvp : globPlain v = true := by
      rcases hv2 with rfl | rfl
      · exact hpl
      · exact hpu
    have hvmem : v ∈ pyDedup [lowerStr ext, upperStr ext] := by
      rw [mem_pyDedup]
      rcases hv2 with rfl | rfl <;> simp
    rcases hcase with ⟨mid, hmid⟩ | hend
    · refine ⟨"AS_".data ++ table ++ '_' :: '*' :: '.' :: v, ?_, ?_⟩
      · rw [dirPatterns, List.mem_flatMap]
        exact ⟨v, hvmem, by simp⟩
      · rw [show "AS_".data ++ table ++ '_' :: '*' :: '.' :: v =
            ("AS_".data ++ table ++ ['_']) ++ '*' :: '.' :: v by simp]
        rw [globMatch_star_pattern _ _ _ hA (hplainB v hvp)]
        refine ⟨mid, ?_⟩
        rw [hmid]
        simp
    · refine ⟨"AS_".data ++ table ++ '.' :: v, ?_, ?_⟩
      · rw [dirPatterns, List.mem_flatMap]
        exact ⟨v, hvmem, by simp⟩
      · rw [globMatch_lit _ _ (hplain2 v hvp)]
        exact hend

theorem zipMatches_characterization (name : Str) (directory : Option Str) (table ext : Str) :
    zipMatches name directory table ext = true ↔
      ((∃ pre d post, lowerStr (pyBasename (pyNormalizeSlashes name)) =
          pre ++ "as_".data ++ lowerStr table ++ '_' :: d :: post ∧ d.isDigit = true) ∨
       (∃ pre, lowerStr (pyBasename (pyNormalizeSlashes name)) =
          pre ++ "as_".data ++ lowerStr table ++ '.' :: lowerStr ext)) ∧
      (match directory with
       | none => ∀ p, p ∈ pyDirParts (pyNormalizeSlashes name) → pyIsDigit p = false
       | some d => d ∈ pyDirParts (pyNormalizeSlashes name)) := by
  rw [zipMatches_iff]
  refine and_congr ?_ Iff.rfl
  rw [zipSearch_iff]
  constructor
  · rintro ⟨pre, suf, hsplit, hhit⟩
    rcases (zipHitHere_iff _ _ _).mp hhit with ⟨d, post, hsuf, hd⟩ | hsuf
    · exact Or.inl ⟨pre, d, post, by rw [hsplit, hsuf]; simp [List.append_assoc], hd⟩
    · exact Or.inr ⟨pre, by rw [hsplit, hsuf]; simp [List.append_assoc]⟩
  · rintro (⟨pre, d, post, he, hd⟩ | ⟨pre, he⟩)
    · exact ⟨pre, "as_".data ++ lowerStr table ++ '_' :: d :: post,
        by rw [he]; simp [List.append_assoc],
        (zipHitHere_iff _ _ _).mpr (Or.inl ⟨d, post, rfl, hd⟩)⟩
    · exact ⟨pre, "as_".data ++ lowerStr table ++ '.' :: lowerStr ext,
        by rw [he]; simp [List.append_assoc],
        (zipHitHere_iff _ _ _).mpr (Or.inr rfl)⟩

/-- C3 counterexample: the entry 77/AS_ADDR_OBJ_20250131.TXT has a basename
of neither candidate form for extension xml (it ends in .TXT), yet the zip
matcher accepts it for table ADDR_OBJ in scope 77, so form-matching is not
necessary for candidacy as the claim states. -/
theorem claim_c3_counterexample :
    zipMatches ("77/AS_ADDR_OBJ_20250131.TXT".data) (some ("77".data))
      ("ADDR_OBJ".data) ("xml".data) = true ∧
    specCandidate ("AS_ADDR_OBJ_20250131.TXT".data) ("ADDR_OBJ".data) ("xml".data) = false := by
  constructor
  · decide
  · decide

/-- C3 amended: the two matchers characterised as the code implements them.
A directory entry is a candidate iff its basename literally matches
AS_<table>_*.<v> or AS_<table>.<v> where v is the all-lower- or all-upper-
cased extension (case-sensitive everywhere else); a zip entry is a candidate
iff its lower-cased basename contains as_<table> followed by an underscore
and a decimal digit anywhere (with any extension), or ends in
as_<table>.<ext>, and its path scope matches the requested constraint.  The
spec's single case-insensitive form-check is neither necessary nor
sufficient for the zip backend and over-approximates the directory one. -/
theorem claim_c3_matching (table ext name : Str) (directory : Option Str)
    (hpt : globPlain table = true) (hpl : globPlain (lowerStr ext) = true)
    (hpu : globPlain (upperStr ext) = true) :
    (dirGlobHit table ext name = true ↔
      ∃ v, (v = lowerStr ext ∨ v = upperStr ext) ∧
        ((∃ mid, name = "AS_".data ++ table ++ '_' :: (mid ++ '.' :: v)) ∨
         name = "AS_".data ++ table ++ '.' :: v)) ∧
    (zipMatches name directory table ext = true ↔
      ((∃ pre d post, lowerStr (pyBasename (pyNormalizeSlashes name)) =
          pre ++ "as_".data ++ lowerStr table ++ '_' :: d :: post ∧ d.isDigit = true) ∨
       (∃ pre, lowerStr (pyBasename (pyNormalizeSlashes name)) =
          pre ++ "as_".data ++ lowerStr table ++ '.' :: lowerStr ext)) ∧
      (match directory with
       | none => ∀ p, p ∈ pyDirParts (pyNormalizeSlashes name) → pyIsDigit p = false
       | some d => d ∈ pyDirParts (pyNormalizeSlashes name))) :=
  ⟨dirGlobHit_iff table ext name hpt hpl hpu,
   zipMatches_characterization name directory table ext⟩

/-- Witness for C3 amended at a concrete standard filename: the directory
matcher accepts AS_ADDR_OBJ_20250131.XML through the upper-case variant
pattern. -/
theorem claim_c3_matching_witness :
    dirGlobHit ("ADDR_OBJ".data) ("xml".data) ("AS_ADDR_OBJ_20250131.XML".data) = true :=
  (claim_c3_matching ("ADDR_OBJ".data) ("xml".data) ("AS_ADDR_OBJ_20250131.XML".data) none
    (by decide) (by decide) (by decide)).1.mpr
    ⟨upperStr ("xml".data), Or.inr rfl, Or.inl ⟨("20250131".data), by decide⟩⟩

theorem zipFindMember_ok {entries : List FileEntry} {directory : Option Str}
    {table ext : Str} {e : FileEntry}
    (h : zipFindMember entries directory table ext = .ok e) :
    e ∈ entries ∧ zipMatches e.name directory table ext = true := by
  rw [zipFindMember] at h
  cases hF : zipFindList entries directory table ext with
  | nil =>
    rw [hF] at h
    simp at h
  | cons a t =>
    cases t with
    | nil =>
      rw [hF] at h
      have ha : a = e := by simpa using h
      subst ha
      have hm : a ∈ zipFindList entries directory table ext := by rw [hF]; simp
      rw [zipFindList, List.mem_filter] at hm
      exact hm
    | cons b u =>
      rw [hF] at h
      simp at h

/-- C5 counterexample: the archive entry 77/78/AS_ADDR_OBJ.XML is resolved
by open_table for region 77, yet its pre-filename segments also contain the
distinct region 78, so the resolved entry does match region 78's scope. -/
theorem claim_c5_counterexample :
    zipFindMember [⟨("77/78/AS_ADDR_OBJ.XML".data), [3]⟩] (some ("77".data))
      ("ADDR_OBJ".data) ("xml".data) = .ok ⟨("77/78/AS_ADDR_OBJ.XML".data), [3]⟩ ∧
    ("78".data) ∈ pyDirParts (pyNormalizeSlashes ("77/78/AS_ADDR_OBJ.XML".data)) ∧
    ("77".data) ≠ ("78".data) := by
  refine ⟨rfl, by decide, by decide⟩

/-- C5 amended: a resolved zip entry always lies in the requested region's
scope, and for archives honouring the two-level region layout the system
assumes — no entry nested below two distinct all-digit segments — an entry
resolved for region r1 never also matches a distinct region r2's scope.
Nested digit directories (see the counterexample) break the original
unconditional claim. -/
theorem claim_c5_region_isolation (entries : List FileEntry) (table ext r1 r2 : Str)
    (e : FileEntry)
    (hlayout : ∀ x ∈ entries, ∀ p ∈ pyDirParts (pyNormalizeSlashes x.name),
      ∀ q ∈ pyDirParts (pyNormalizeSlashes x.name),
      pyIsDigit p = true → pyIsDigit q = true → p = q)
    (hr1 : pyIsDigit r1 = true) (hr2 : pyIsDigit r2 = true) (hne : r1 ≠ r2)
    (hfind : zipFindMember entries (some r1) table ext = .ok e) :
    r2 ∉ pyDirParts (pyNormalizeSlashes e.name) := by
  intro hr2mem
  rcases zipFindMember_ok hfind with ⟨hmem, hmat⟩
  have hscope : r1 ∈ pyDirParts (pyNormalizeSlashes e.name) :=
    ((zipMatches_iff e.name (some r1) table ext).mp hmat).2
  exact hne (hlayout e hmem r1 hscope r2 hr2mem hr1 hr2)

/-- Witness for C5 amended: a one-level archive resolved for region 77 gives
an entry outside region 78's scope. -/
theorem claim_c5_region_isolation_witness :
    ("78".data) ∉ pyDirParts (pyNormalizeSlashes ("77/AS_T_1.XML".data)) :=
  claim_c5_region_isolation [⟨("77/AS_T_1.XML".data), [1]⟩] ("T".data) ("xml".data)
    ("77".data) ("78".data) ⟨("77/AS_T_1.XML".data), [1]⟩
    (by decide) (by decide) (by decide) (by decide) rfl

/-- One logical dataset: files at the container root and per-region file
groups.  Its archived form prefixes each region file with the region segment;
its extracted form is the corresponding directory tree. -/
structure Dataset where
  rootFiles : List FileEntry
  subdirs : List (Str × List FileEntry)

/-- The archived (zip) form of a dataset. -/
def zipOfDataset (d : Dataset) : List FileEntry :=
  d.rootFiles ++ d.subdirs.flatMap
    (fun g => g.2.map (fun f => (⟨g.1 ++ '/' :: f.name, f.bytes⟩ : FileEntry)))

/-- The extracted (directory) form of a dataset. -/
def dirOfDataset (d : Dataset) : DirTree := ⟨d.rootFiles, d.subdirs⟩

theorem zipMatches_root_region {n : Str} (hn : slashFree n = true) (r table ext : Str) :
    zipMatches n (some r) table ext = false := by
  rcases root_parts hn with ⟨hparts, _⟩
  rw [Bool.eq_false_iff]
  intro h
  have hsc : r ∈ pyDirParts (pyNormalizeSlashes n) :=
    ((zipMatches_iff n (some r) table ext).mp h).2
  rw [hparts] at hsc
  exact absurd hsc (List.not_mem_nil r)

theorem zipMatches_entry_other {g n : Str} (hg : slashFree g = true)
    (hn : slashFree n = true) {r : Str} (table ext : Str) (hne : ¬g = r) :
    zipMatches (g ++ '/' :: n) (some r) table ext = false := by
  rcases entry_parts hg hn with ⟨hparts, _⟩
  rw [Bool.eq_false_iff]
  intro h
  have hsc : r ∈ pyDirParts (pyNormalizeSlashes (g ++ '/' :: n)) :=
    ((zipMatches_iff (g ++ '/' :: n) (some r) table ext).mp h).2
  rw [hparts] at hsc
  simp at hsc
  exact hne hsc.symm

/-- The first group with the given key, or the empty listing: the lookup
subdirFiles performs on a directory tree. -/
def lookupGroup (gs : List (Str × List FileEntry)) (r : Str) : List FileEntry :=
  match gs.find? (fun g => g.1 == r) with
  | some g => g.2
  | none => []

theorem subdirFiles_eq (t : DirTree) (r : Str) : subdirFiles t r = lookupGroup t.subdirs r := rfl

theorem lookupGroup_cons_pos {g : Str × List FileEntry} {gs : List (Str × List FileEntry)}
    {r : Str} (h : g.1 = r) : lookupGroup (g :: gs) r = g.2 := by
  simp only [lookupGroup]
  rw [List.find?_cons_of_pos _ (by simp [h])]

theorem lookupGroup_cons_neg {g : Str × List FileEntry} {gs : List (Str × List FileEntry)}
    {r : Str} (h : ¬g.1 = r) : lookupGroup (g :: gs) r = lookupGroup gs r := by
  simp only [lookupGroup]
  rw [List.find?_cons_of_neg _ (by simp [h])]

theorem zipFindList_groups (table ext r : Str) : ∀ (gs : List (Str × List FileEntry)),
    (gs.map (fun g => g.1)).Nodup →
    (∀ g ∈ gs, slashFree g.1 = true) →
    (∀ g ∈ gs, ∀ f ∈ g.2, slashFree f.name = true) →
    (∀ g ∈ gs, g.1 = r → ∀ f ∈ g.2,
      zipMatches (g.1 ++ '/' :: f.name) (some r) table ext =
        dirGlobHit table ext f.name) →
    (gs.flatMap (fun g => g.2.map
        (fun f => (⟨g.1 ++ '/' :: f.name, f.bytes⟩ : FileEntry)))).filter
        (fun e => zipMatches e.name (some r) table ext) =
      ((lookupGroup gs r).filter
        (fun f => dirGlobHit table ext f.name)).map
        (fun f => (⟨r ++ '/' :: f.name, f.bytes⟩ : FileEntry))
  | [] => by
    intro _ _ _ _
    rfl
  | g :: gs => by
    intro hnd hkf hff hag
    rw [List.flatMap_cons, List.filter_append]
    by_cases hgr : g.1 = r
    · subst hgr
      rw [lookupGroup_cons_pos rfl]
      have h1 : (g.2.map (fun f => (⟨g.1 ++ '/' :: f.name, f.bytes⟩ : FileEntry))).filter
          (fun e => zipMatches e.name (some g.1) table ext) =
          (g.2.filter (fun f => dirGlobHit table ext f.name)).map
          (fun f => (⟨g.1 ++ '/' :: f.name, f.bytes⟩ : FileEntry)) := by
        rw [List.filter_map]
        congr 1
        apply List.filter_congr
        intro f hf
        simp only [Function.comp_apply, Function.comp]
        exact hag g (by simp) rfl f hf
      have h2 : (gs.flatMap (fun g => g.2.map
          (fun f => (⟨g.1 ++ '/' :: f.name, f.bytes⟩ : FileEntry)))).filter
          (fun e => zipMatches e.name (some g.1) table ext) = [] := by
        rw [List.filter_eq_nil_iff]
        intro e he
        rw [List.mem_flatMap] at he
        rcases he with ⟨g2, hg2, he2⟩
        rw [List.mem_map] at he2
        rcases he2 with ⟨f, hf, rfl⟩
        have hg2r : ¬g2.1 = g.1 := by
          intro he
          rw [List.map_cons, List.nodup_cons] at hnd
          exact hnd.1 (by
            rw [← he]
            exact List.mem_map.mpr ⟨g2, hg2, rfl⟩)
        simp only []
        rw [zipMatches_entry_other (hkf g2 (by simp [hg2]))
          (hff g2 (by simp [hg2]) f hf) table ext hg2r]
        simp
      rw [h1, h2, List.append_nil]
    · rw [lookupGroup_cons_neg hgr]
      have h1 : (g.2.map (fun f => (⟨g.1 ++ '/' :: f.name, f.bytes⟩ : FileEntry))).filter
          (fun e => zipMatches e.name (some r) table ext) = [] := by
        rw [List.filter_eq_nil_iff]
        intro e he
        rw [List.mem_map] at he
        rcases he with ⟨f, hf, rfl⟩
        simp only []
        rw [zipMatches_entry_other (hkf g (by simp))
          (hff g (by simp) f hf) table ext hgr]
        simp
      rw [h1, List.nil_append]
      rw [List.map_cons, List.nodup_cons] at hnd
      exact zipFindList_groups table ext r gs hnd.2
        (fun g2 hg2 => hkf g2 (by simp [hg2]))
        (fun g2 hg2 => hff g2 (by simp [hg2]))
        (fun g2 hg2 => hag g2 (by simp [hg2]))

theorem dirSearch_eq_filter {files : List FileEntry} {table ext : Str} (hn : files.Nodup) :
    dirSearch files table ext =
      match files.filter (fun x => dirGlobHit table ext x.name) with
      | [f] => Except.ok f
      | [] => Except.error ResolutionError.notFound
      | _ => Except.error ResolutionError.ambiguous := by
  cases hF : files.filter (fun x => dirGlobHit table ext x.name) with
  | nil =>
    have hlist : dirSearchList files table ext = [] := by
      rw [List.eq_nil_iff_forall_not_mem]
      intro x hx
      rw [mem_dirSearchList] at hx
      have hxf : x ∈ files.filter (fun x => dirGlobHit table ext x.name) :=
        List.mem_filter.mpr ⟨hx.1, hx.2⟩
      rw [hF] at hxf
      exact absurd hxf (by simp)
    simp [dirSearch, hlist]
  | cons a t =>
    cases t with
    | nil =>
      have hmem : ∀ x, x ∈ dirSearchList files table ext ↔ x = a := by
        intro x
        rw [mem_dirSearchList]
        constructor
        · rintro ⟨hx, hg⟩
          have hxf : x ∈ files.filter (fun y => dirGlobHit table ext y.name) :=
            List.mem_filter.mpr ⟨hx, hg⟩
          rw [hF] at hxf
          simpa using hxf
        · intro hxe
          have hxf : x ∈ files.filter (fun y => dirGlobHit table ext y.name) := by
            rw [hxe, hF]; simp
          exact ⟨(List.mem_filter.mp hxf).1, (List.mem_filter.mp hxf).2⟩
      have hlist : dirSearchList files table ext = [a] :=
        nodup_eq_singleton (nodup_pyDedup _) hmem
      simp [dirSearch, hlist]
    | cons b u =>
      have hfn : (files.filter (fun x => dirGlobHit table ext x.name)).Nodup :=
        hn.filter _
      have hab : a ≠ b := by
        rw [hF] at hfn
        simp [List.nodup_cons] at hfn
        intro h
        exact hfn.1.1 h
      have hamem : a ∈ dirSearchList files table ext := by
        apply mem_dirSearchList.mpr
        have hxf : a ∈ files.filter (fun x => dirGlobHit table ext x.name) := by
          rw [hF]; simp
        exact ⟨(List.mem_filter.mp hxf).1, (List.mem_filter.mp hxf).2⟩
      have hbmem : b ∈ dirSearchList files table ext := by
        apply mem_dirSearchList.mpr
        have hxf : b ∈ files.filter (fun x => dirGlobHit table ext x.name) := by
          rw [hF]; simp
        exact ⟨(List.mem_filter.mp hxf).1, (List.mem_filter.mp hxf).2⟩
      cases hL : dirSearchList files table ext with
      | nil => rw [hL] at hamem; exact absurd hamem (by simp)
      | cons x v =>
        cases v with
        | nil =>
          rw [hL] at hamem hbmem
          simp at hamem hbmem
          exact absurd (hamem.trans hbmem.symm) hab
        | cons y w => simp [dirSearch, hL]

/-- C4 counterexample: a dataset whose single region file is
AS_ADDR_OBJ_20250131.TXT: the archived form resolves it for
(ADDR_OBJ, 77) and streams its bytes, while the equivalent extracted form
fails with not-found — the two backends disagree on the same query. -/
theorem claim_c4_counterexample :
    zipOpenTable (zipOfDataset ⟨[], [(("77".data),
        [⟨("AS_ADDR_OBJ_20250131.TXT".data), [7]⟩])]⟩)
      ("ADDR_OBJ".data) (some ("77".data)) = .ok [7] ∧
    dirOpenTable (dirOfDataset ⟨[], [(("77".data),
        [⟨("AS_ADDR_OBJ_20250131.TXT".data), [7]⟩])]⟩)
      ("ADDR_OBJ".data) (some ("77".data)) = .error .notFound := by
  constructor
  · rfl
  · rfl

/-- C4 amended: over a two-level dataset with unique slash-free region names,
slash-free unique filenames, the archived and extracted forms agree on every
(table, region) query — byte-identical streams on success, the same failure
kind otherwise — provided the two backends' matchers agree on every filename
in the queried region's scope.  The counterexample shows the matchers
genuinely differ, so the unconditional round-trip of the claim fails. -/
theorem claim_c4_roundtrip (d : Dataset) (table r : Str)
    (hkeys : (d.subdirs.map (fun g => g.1)).Nodup)
    (hkeysf : ∀ g ∈ d.subdirs, slashFree g.1 = true)
    (hroot : ∀ f ∈ d.rootFiles, slashFree f.name = true)
    (hfiles : ∀ g ∈ d.subdirs, ∀ f ∈ g.2, slashFree f.name = true)
    (hnodupf : ∀ g ∈ d.subdirs, g.2.Nodup)
    (hagree : ∀ g ∈ d.subdirs, g.1 = r → ∀ f ∈ g.2,
      zipMatches (g.1 ++ '/' :: f.name) (some r) table ("xml".data) =
        dirGlobHit table ("xml".data) f.name) :
    zipOpenTable (zipOfDataset d) table (some r) =
      dirOpenTable (dirOfDataset d) table (some r) := by
  have hrootnil : (d.rootFiles.filter
      (fun e => zipMatches e.name (some r) table ("xml".data))) = [] := by
    rw [List.filter_eq_nil_iff]
    intro f hf
    simp only []
    rw [zipMatches_root_region (hroot f hf) r table ("xml".data)]
    simp
  have hzl : zipFindList (zipOfDataset d) (some r) table ("xml".data) =
      ((subdirFiles (dirOfDataset d) r).filter
        (fun f => dirGlobHit table ("xml".data) f.name)).map
        (fun f => (⟨r ++ '/' :: f.name, f.bytes⟩ : FileEntry)) := by
    rw [zipFindList, zipOfDataset, List.filter_append, hrootnil, List.nil_append]
    exact zipFindList_groups table ("xml".data) r d.subdirs hkeys hkeysf hfiles hagree
  have hnd : (subdirFiles (dirOfDataset d) r).Nodup := by
    rw [subdirFiles_eq]
    simp only [lookupGroup]
    cases hf : (dirOfDataset d).subdirs.find? (fun g => g.1 == r) with
    | none => simp
    | some g =>
      have hg : g ∈ d.subdirs := List.mem_of_find?_eq_some hf
      exact hnodupf g hg
  rw [zipOpenTable, zipFindMember, hzl, dirOpenTable]
  simp only []
  rw [dirSearch_eq_filter hnd]
  cases hFF : (subdirFiles (dirOfDataset d) r).filter
      (fun f => dirGlobHit table ("xml".data) f.name) with
  | nil => rfl
  | cons a t =>
    cases t with
    | nil => rfl
    | cons b u => rfl

/-- Witness for C4 amended at a concrete standard dataset: both forms
resolve AS_ADDR_OBJ_20250131.XML in region 77 and stream the same bytes. -/
theorem claim_c4_roundtrip_witness :
    zipOpenTable (zipOfDataset ⟨[], [(("77".data),
        [⟨("AS_ADDR_OBJ_20250131.XML".data), [5]⟩])]⟩)
      ("ADDR_OBJ".data) (some ("77".data)) =
    dirOpenTable (dirOfDataset ⟨[], [(("77".data),
        [⟨("AS_ADDR_OBJ_20250131.XML".data), [5]⟩])]⟩)
      ("ADDR_OBJ".data) (some ("77".data)) :=
  claim_c4_roundtrip ⟨[], [(("77".data), [⟨("AS_ADDR_OBJ_20250131.XML".data), [5]⟩])]⟩
    ("ADDR_OBJ".data) ("77".data)
    (by decide) (by decide) (by decide) (by decide) (by decide) (by decide)
